import Mathlib

/-!
# A verification model of the deebee versioned key-value store

This file embeds the core of the `deebee` library (file `deebee.go`) in Lean 4
and proves the behavioural properties claimed by its specification.

The embedding:

* `Deebee.DBErr` — the error taxonomy (caller errors, not-found, plain and
  wrapped errors mirroring `errors.New` / `fmt.Errorf("...: %w", err)`).
* `Deebee.FS` — an in-memory model of the root `Dir` abstraction: an
  association list of subdirectories (one per key), each holding files as
  `(name, content)` pairs.  The file operations honour the documented `Dir`
  interface contract: `FileWriter` fails when the file already exists,
  `FileReader` fails when it is absent, `Mkdir` is idempotent.
* `Deebee.DB` — the database handle: the filesystem plus the version counter.
* `Deebee.DB.writerStep` / `Deebee.DB.readerTr` — direct translations of
  `(*DB).Writer` and `(*DB).Reader` from `deebee.go`.  Both also return the
  trace of `Dir` interface operations performed, so that "no I/O happened"
  is expressible.
* `Deebee.Open` — translation of `Open` from `deebee.go`, with the option
  list applied in order.

Helpers of the repository that are referenced by `deebee.go` but whose
source file is not part of the provided sources (`validateKey`,
`toFilenames`, `youngestFilename`, the concrete error types and the
classification predicates, and the checksum read path) are modelled from the
specification; each such definition carries a doc comment saying so.
-/

namespace Deebee

/-- A byte sequence (payload of a file). -/
abbrev Bytes := List Nat

/-- Modelled from the spec: the error taxonomy of §7 (the concrete error
types `clientError` / `dataNotFoundError` are not among the provided
sources).  A closed tagged-variant error type:
`clientError` is the error built by `newClientError`, `dataNotFound` is
`dataNotFoundError` with the distinguishing "all versions corrupted"
attribute of §7, `plainError` models `errors.New`, and `wrapped` models
`fmt.Errorf("...: %w", err)`. -/
inductive DBErr where
  | clientError (msg : String)
  | dataNotFound (corrupted : Bool)
  | plainError (msg : String)
  | wrapped (msg : String) (inner : DBErr)
deriving DecidableEq, Repr

/-- Modelled from the spec: the caller-input classification predicate
("is this a caller-input error", §6/§9), implemented by matching the tag and
looking through wrapping (the semantics of `errors.As`). -/
def IsClientError : DBErr → Bool
  | .clientError _ => true
  | .wrapped _ inner => IsClientError inner
  | _ => false

/-- Modelled from the spec: the not-found classification predicate
("is this a not-found condition", §6/§9), by matching the tag through
wrapping. -/
def IsDataNotFound : DBErr → Bool
  | .dataNotFound _ => true
  | .wrapped _ inner => IsDataNotFound inner
  | _ => false

/-- The identity/causal check of `errors.Is`: the target itself, or the
target reachable by unwrapping `wrapped` layers. -/
def errIs : DBErr → DBErr → Bool
  | e, target =>
    (e = target : Bool) ||
      match e with
      | .wrapped _ inner => errIs inner target
      | _ => false

/-! ## Association lists

The in-memory filesystem stores subdirectories and files as association
lists; `lookupA` returns the first binding of a key and `updAssoc` rewrites
the first binding of a key in place. -/

/-- First binding of key `k` in an association list. -/
def lookupA {β : Type} (k : String) : List (String × β) → Option β
  | [] => none
  | (k', v) :: rest => if k' = k then some v else lookupA k rest

/-- Rewrite the first binding of key `k` with `f`; other bindings are kept. -/
def updAssoc {β : Type} (k : String) (f : β → β) : List (String × β) → List (String × β)
  | [] => []
  | (k', v) :: rest => if k' = k then (k', f v) :: rest else (k', v) :: updAssoc k f rest

/-! ## Decimal rendering and parsing of version numbers -/

/-- Little-endian decimal digits of `n` (`fmt.Sprintf("%d", n)` backbone). -/
def toDigitsRev (n : Nat) : List Nat :=
  if h : n < 10 then [n]
  else (n % 10) :: toDigitsRev (n / 10)
decreasing_by exact Nat.div_lt_self (by omega) (by omega)

/-- The decimal digit character for a digit value `d < 10`. -/
def digitChar (d : Nat) : Char := Char.ofNat (48 + d)

/-- The decimal string of a natural number: the model of
`fmt.Sprintf("%d", version)` in `nextVersionFilename`. -/
def natRepr (n : Nat) : String := String.mk ((toDigitsRev n).reverse.map digitChar)

/-- Value of a big-endian digit list. -/
def digitsVal (ds : List Nat) : Nat := ds.foldl (fun a d => 10 * a + d) 0

/-- Modelled from the spec: the parse of a filename as a version integer
(§4.4 step 3; the parsing helper used by `toFilenames` is not among the
provided sources).  A name parses iff it is a non-empty string of decimal
digits; the value is the usual base-10 value. -/
def parseVersion (s : String) : Option Nat :=
  if s.data.isEmpty || !s.data.all Char.isDigit then none
  else some (digitsVal (s.data.map (fun c => c.toNat - 48)))

/-- A filename together with its parsed version value (the `filename`
struct consumed by `youngestFilename`). -/
structure Filename where
  name : String
  version : Nat
deriving DecidableEq, Repr

/-- Modelled from the spec: `toFilenames` (not among the provided sources)
parses each listed name, discarding entries that do not parse (§4.4). -/
def toFilenames (names : List String) : List Filename :=
  names.filterMap fun n => (parseVersion n).map fun v => ⟨n, v⟩

/-- Selection of an entry with the numerically greatest `ver` value, or
`none` when there is no entry. -/
def youngestBy {α : Type} (ver : α → Nat) : List α → Option α
  | [] => none
  | f :: rest =>
    match youngestBy ver rest with
    | none => some f
    | some g => if ver f < ver g then some g else some f

/-- Modelled from the spec: `youngestFilename` (not among the provided
sources) selects the entry with the numerically greatest version value
(§4.4 step 5); returns `none` when there is no entry, mirroring the
`(filename, bool)` return of the Go helper. -/
def youngestFilename (l : List Filename) : Option Filename :=
  youngestBy Filename.version l

/-! ## The key validator -/

/-- Whether a character list starts or ends with a whitespace character. -/
def hasEdgeWhitespace (cs : List Char) : Bool :=
  ((cs.head?.map Char.isWhitespace).getD false) ||
    ((cs.getLast?.map Char.isWhitespace).getD false)

/-- Modelled from the spec: `validateKey` (not among the provided sources).
§4.1: rejects the empty string, strings with leading or trailing whitespace,
the strings "." and "..", and any string containing a forward slash or a
backslash; all other strings are accepted.  Rejection yields the error of
`newClientError`. -/
def validateKey (key : String) : Option DBErr :=
  if key = "" then some (.clientError "invalid key")
  else if hasEdgeWhitespace key.data then some (.clientError "invalid key")
  else if key = "." ∨ key = ".." then some (.clientError "invalid key")
  else if key.data.any (fun c => c = '/' ∨ c = '\\') then some (.clientError "invalid key")
  else none

/-! ## The in-memory filesystem (the root `Dir`) -/

/-- In-memory model of the root `Dir`: subdirectories (one per key), each a
list of files as `(name, content)` pairs. -/
structure FS where
  subdirs : List (String × List (String × Bytes))
deriving DecidableEq, Repr

/-- `Dir.Exists` of a key's subdirectory. -/
def FS.dirExists (fs : FS) (key : String) : Bool :=
  (lookupA key fs.subdirs).isSome

/-- `Dir.Mkdir` of a key's subdirectory: "do nothing when directory already
exists". -/
def FS.mkdir (fs : FS) (key : String) : FS :=
  if (lookupA key fs.subdirs).isSome then fs else ⟨(key, []) :: fs.subdirs⟩

/-- `Dir.ListFiles` of a key's subdirectory (names only, a missing
directory lists nothing). -/
def FS.listFiles (fs : FS) (key : String) : List String :=
  ((lookupA key fs.subdirs).getD []).map Prod.fst

/-- `Dir.FileWriter`: "creates a new file for write, must return error when
file already exists".  Creation registers the (initially empty) file. -/
def FS.fileWriter (fs : FS) (key name : String) : Except DBErr FS :=
  match lookupA key fs.subdirs with
  | none => .error (.plainError "dir does not exist")
  | some files =>
    if (lookupA name files).isSome then .error (.plainError "file already exists")
    else .ok ⟨updAssoc key (fun fl => (name, []) :: fl) fs.subdirs⟩

/-- Closing the write stream: the bytes written to the stream become the
content of the file created by `FS.fileWriter`. -/
def FS.setFile (fs : FS) (key name : String) (data : Bytes) : FS :=
  ⟨updAssoc key (updAssoc name (fun _ => data)) fs.subdirs⟩

/-- `Dir.FileReader`: "opens an existing file for read, must return error
when file does not exist"; reading the stream to the end yields the file's
content. -/
def FS.fileReader (fs : FS) (key name : String) : Except DBErr Bytes :=
  match lookupA key fs.subdirs with
  | none => .error (.plainError "file not found")
  | some files =>
    match lookupA name files with
    | none => .error (.plainError "file not found")
    | some data => .ok data

/-! ## The database handle -/

/-- `DB` from `deebee.go`: the directory reference and the version counter
(`version int`, starting at 0). -/
structure DB where
  fs : FS
  version : Nat
deriving DecidableEq, Repr

/-- One operation of the `Dir` interface, for recording which I/O an entry
point performed (`Dir.Dir(name)` "does not check immediately if dir exists"
and touches no storage, so it is not an event). -/
inductive DirOp where
  | existsCheck (key : String)
  | mkdirOp (key : String)
  | listFilesOp (key : String)
  | fileReaderOp (key name : String)
  | fileWriterOp (key name : String)
deriving DecidableEq, Repr

/-- `(*DB).Writer` from `deebee.go`, up to handing out the write stream:
validate the key; check/create the key's subdirectory; allocate the next
version filename (`nextVersionFilename` increments the counter even when
the subsequent create fails); create the file.  Returns the new handle
state, the trace of `Dir` operations, and the created filename or the
error. -/
def DB.writerStep (s : DB) (key : String) : DB × List DirOp × Except DBErr String :=
  match validateKey key with
  | some e => (s, [], .error e)
  | none =>
    let p :=
      if s.fs.dirExists key then (s.fs, [DirOp.existsCheck key])
      else (s.fs.mkdir key, [DirOp.existsCheck key, DirOp.mkdirOp key])
    let name := natRepr s.version
    match p.1.fileWriter key name with
    | .error e => (⟨p.1, s.version + 1⟩, p.2 ++ [DirOp.fileWriterOp key name], .error e)
    | .ok fs2 => (⟨fs2, s.version + 1⟩, p.2 ++ [DirOp.fileWriterOp key name], .ok name)

/-- A full write session: `Writer(key)`, then writing `data` to the stream
and closing it (`FS.setFile`). -/
def DB.write (s : DB) (key : String) (data : Bytes) : DB × Except DBErr Unit :=
  match s.writerStep key with
  | (s1, _, .error e) => (s1, .error e)
  | (s1, _, .ok name) => (⟨s1.fs.setFile key name data, s1.version⟩, .ok ())

/-- `(*DB).Reader` from `deebee.go`: validate the key; if the key's
subdirectory does not exist return `dataNotFoundError`; list its files;
take the youngest parseable version, or return `dataNotFoundError` when
there is none; open that file.  Returns the trace of `Dir` operations and
the stream's full contents or the error. -/
def DB.readerTr (s : DB) (key : String) : List DirOp × Except DBErr Bytes :=
  match validateKey key with
  | some e => ([], .error e)
  | none =>
    if s.fs.dirExists key then
      match youngestFilename (toFilenames (s.fs.listFiles key)) with
      | none => ([DirOp.existsCheck key, DirOp.listFilesOp key], .error (.dataNotFound false))
      | some df =>
        ([DirOp.existsCheck key, DirOp.listFilesOp key, DirOp.fileReaderOp key df.name],
          s.fs.fileReader key df.name)
    else ([DirOp.existsCheck key], .error (.dataNotFound false))

/-- The root directory handed to `Open`: whether it exists on the backing
store, and its contents. -/
structure RootDir where
  present : Bool
  fs : FS
deriving DecidableEq, Repr

/-- A configuration option: `type Option func(db *DB) error`. -/
def DBOption : Type := DB → Except DBErr DB

/-- The option-application loop of `Open`: each option in order, a `nil`
option skipped, a failing option aborting with
`fmt.Errorf("applying option failed: %w", err)`. -/
def applyOptions : DB → List (Option DBOption) → Except DBErr DB
  | db, [] => .ok db
  | db, none :: rest => applyOptions db rest
  | db, some f :: rest =>
    match f db with
    | .error e => .error (.wrapped "applying option failed" e)
    | .ok db' => applyOptions db' rest

/-- `Open` from `deebee.go`: a `nil` dir yields `errors.New("nil dir")`; a
dir whose existence check reports false yields the error of
`newClientError`; otherwise the handle starts with version counter 0 and
the options are applied in order. -/
def Open (dir : Option RootDir) (options : List (Option DBOption)) : Except DBErr DB :=
  match dir with
  | none => .error (.plainError "nil dir")
  | some d =>
    if d.present then applyOptions ⟨d.fs, 0⟩ options
    else .error (.clientError "database dir not found")

/-- The handle invariant: every file name anywhere in the store that parses
as a version parses below the handle's counter.  It holds for a handle
freshly opened on a directory without foreign version files and, as proved
below, it is preserved by every write. -/
def DB.versionsBelow (s : DB) : Bool :=
  s.fs.subdirs.all fun p => p.2.all fun f => (parseVersion f.1).all fun v => v < s.version

/-! ## Lemmas: association lists -/

theorem lookupA_updAssoc_self {β : Type} (k : String) (f : β → β) (l : List (String × β)) :
    lookupA k (updAssoc k f l) = (lookupA k l).map f := by
  induction l with
  | nil => rfl
  | cons p rest ih =>
    obtain ⟨k', v⟩ := p
    by_cases h : k' = k
    · simp [updAssoc, lookupA, h]
    · simp [updAssoc, lookupA, h, ih]

theorem lookupA_some_mem {β : Type} {k : String} {l : List (String × β)} {v : β}
    (h : lookupA k l = some v) : (k, v) ∈ l := by
  induction l with
  | nil => simp [lookupA] at h
  | cons p rest ih =>
    obtain ⟨k', w⟩ := p
    by_cases hk : k' = k
    · subst hk
      simp [lookupA] at h
      simp [h]
    · simp [lookupA, hk] at h
      exact List.mem_cons_of_mem _ (ih h)

theorem mem_updAssoc {β : Type} {k : String} {f : β → β} {l : List (String × β)}
    {p : String × β} (h : p ∈ updAssoc k f l) :
    p ∈ l ∨ ∃ v, (k, v) ∈ l ∧ p = (k, f v) := by
  induction l with
  | nil => simp [updAssoc] at h
  | cons q rest ih =>
    obtain ⟨k', v⟩ := q
    by_cases hk : k' = k
    · subst hk
      simp only [updAssoc, if_pos, List.mem_cons] at h
      rcases h with h | h
      · exact Or.inr ⟨v, List.mem_cons_self _ _, h⟩
      · exact Or.inl (List.mem_cons_of_mem _ h)
    · simp only [updAssoc, if_neg hk, List.mem_cons] at h
      rcases h with h | h
      · exact Or.inl (by simp [h])
      · rcases ih h with h' | ⟨w, hw, hp⟩
        · exact Or.inl (List.mem_cons_of_mem _ h')
        · exact Or.inr ⟨w, List.mem_cons_of_mem _ hw, hp⟩

theorem updAssoc_cons_self {β : Type} (k : String) (f : β → β) (v : β)
    (l : List (String × β)) : updAssoc k f ((k, v) :: l) = (k, f v) :: l := by
  simp [updAssoc]

/-! ## Lemmas: decimal round trip -/

theorem toDigitsRev_lt_ten (n : Nat) : ∀ d ∈ toDigitsRev n, d < 10 := by
  induction n using Nat.strong_induction_on with
  | _ n ih =>
    rw [toDigitsRev]
    split
    · intro d hd
      simp at hd
      omega
    · intro d hd
      simp at hd
      rcases hd with h | h
      · omega
      · exact ih (n / 10) (by omega) d h

theorem toDigitsRev_ne_nil (n : Nat) : toDigitsRev n ≠ [] := by
  rw [toDigitsRev]
  split <;> simp

theorem digitsVal_append (ds : List Nat) (d : Nat) :
    digitsVal (ds ++ [d]) = 10 * digitsVal ds + d := by
  simp [digitsVal, List.foldl_append]

theorem digitsVal_reverse_toDigitsRev (n : Nat) :
    digitsVal (toDigitsRev n).reverse = n := by
  induction n using Nat.strong_induction_on with
  | _ n ih =>
    rw [toDigitsRev]
    split
    · simp [digitsVal]
    · rw [List.reverse_cons, digitsVal_append, ih (n / 10) (by omega)]
      omega

theorem isDigit_digitChar {d : Nat} (h : d < 10) : (digitChar d).isDigit = true := by
  interval_cases d <;> decide

theorem toNat_digitChar {d : Nat} (h : d < 10) : (digitChar d).toNat = 48 + d := by
  interval_cases d <;> decide

theorem natRepr_data (n : Nat) :
    (natRepr n).data = (toDigitsRev n).reverse.map digitChar := rfl

/-- `fmt.Sprintf("%d", n)` parses back to `n`: the round trip between the
version-filename printer and the version parse. -/
theorem parseVersion_natRepr (n : Nat) : parseVersion (natRepr n) = some n := by
  have hmem : ∀ d ∈ (toDigitsRev n).reverse, d < 10 := by
    intro d hd
    exact toDigitsRev_lt_ten n d (List.mem_reverse.mp hd)
  have hall : ((toDigitsRev n).reverse.map digitChar).all Char.isDigit = true := by
    simp only [List.all_eq_true, List.mem_map]
    rintro c ⟨d, hd, rfl⟩
    exact isDigit_digitChar (hmem d hd)
  have hne : ((toDigitsRev n).reverse.map digitChar).isEmpty = false := by
    cases hrev : (toDigitsRev n).reverse.map digitChar with
    | nil =>
      exfalso
      apply toDigitsRev_ne_nil n
      have hrv : (toDigitsRev n).reverse = [] := by
        cases hh : (toDigitsRev n).reverse with
        | nil => rfl
        | cons a l => rw [hh] at hrev; simp at hrev
      simpa using hrv
    | cons a l => rfl
  unfold parseVersion
  rw [natRepr_data, hne, hall]
  simp only [Bool.not_true, Bool.or_false, Bool.false_eq_true, if_false, Option.some.injEq]
  rw [List.map_map]
  have hmaps : (toDigitsRev n).reverse.map ((fun c => c.toNat - 48) ∘ digitChar)
      = (toDigitsRev n).reverse := by
    have hid : ∀ d ∈ (toDigitsRev n).reverse,
        ((fun c => c.toNat - 48) ∘ digitChar) d = id d := by
      intro d hd
      simp only [Function.comp_apply, id_eq]
      rw [toNat_digitChar (hmem d hd)]
      omega
    rw [List.map_congr_left hid, List.map_id]
  rw [hmaps, digitsVal_reverse_toDigitsRev]

theorem natRepr_injective {a b : Nat} (h : natRepr a = natRepr b) : a = b := by
  have ha := parseVersion_natRepr a
  have hb := parseVersion_natRepr b
  rw [h, hb] at ha
  exact (Option.some_inj.mp ha).symm

/-! ## Lemmas: youngest-version selection -/

theorem youngestBy_eq_none {α : Type} {ver : α → Nat} {l : List α}
    (h : youngestBy ver l = none) : l = [] := by
  cases l with
  | nil => rfl
  | cons a rest =>
    cases hy : youngestBy ver rest with
    | none => simp only [youngestBy, hy] at h; exact absurd h (by simp)
    | some m =>
      simp only [youngestBy, hy] at h
      split at h <;> simp at h

theorem youngestBy_mem {α : Type} {ver : α → Nat} {l : List α} {f : α}
    (h : youngestBy ver l = some f) : f ∈ l := by
  induction l with
  | nil => simp [youngestBy] at h
  | cons g rest ih =>
    cases hy : youngestBy ver rest with
    | none =>
      simp only [youngestBy, hy, Option.some.injEq] at h
      rw [← h]
      exact List.mem_cons_self _ _
    | some m =>
      simp only [youngestBy, hy] at h
      by_cases hc : ver g < ver m
      · rw [if_pos hc] at h
        simp at h
        subst h
        exact List.mem_cons_of_mem _ (ih hy)
      · rw [if_neg hc] at h
        simp at h
        simp [h]

theorem youngestBy_max {α : Type} (ver : α → Nat) (l : List α) :
    ∀ f, youngestBy ver l = some f → ∀ g ∈ l, ver g ≤ ver f := by
  induction l with
  | nil => simp
  | cons a rest ih =>
    intro f h g hg
    cases hy : youngestBy ver rest with
    | none =>
      simp only [youngestBy, hy, Option.some.injEq] at h
      subst h
      have : rest = [] := youngestBy_eq_none hy
      subst this
      simp at hg
      simp [hg]
    | some m =>
      simp only [youngestBy, hy] at h
      rcases List.mem_cons.mp hg with hga | hgr
      · subst hga
        by_cases hc : ver g < ver m
        · rw [if_pos hc] at h
          simp at h
          subst h
          omega
        · rw [if_neg hc] at h
          simp at h
          subst h
          exact le_refl _
      · have hgm := ih m hy g hgr
        by_cases hc : ver a < ver m
        · rw [if_pos hc] at h
          simp at h
          subst h
          exact hgm
        · rw [if_neg hc] at h
          simp at h
          subst h
          omega

theorem youngestBy_cons_of_max {α : Type} {ver : α → Nat} {f : α} {rest : List α}
    (h : ∀ g ∈ rest, ver g < ver f) :
    youngestBy ver (f :: rest) = some f := by
  cases hy : youngestBy ver rest with
  | none => simp only [youngestBy, hy]
  | some m =>
    have := h m (youngestBy_mem hy)
    simp only [youngestBy, hy]
    rw [if_neg (by omega)]

theorem youngestFilename_eq_none {l : List Filename}
    (h : youngestFilename l = none) : l = [] := youngestBy_eq_none h

theorem youngestFilename_mem {l : List Filename} {f : Filename}
    (h : youngestFilename l = some f) : f ∈ l := youngestBy_mem h

theorem youngestFilename_max (l : List Filename) :
    ∀ f, youngestFilename l = some f → ∀ g ∈ l, g.version ≤ f.version :=
  youngestBy_max Filename.version l

theorem youngestFilename_cons_of_max {f : Filename} {rest : List Filename}
    (h : ∀ g ∈ rest, g.version < f.version) :
    youngestFilename (f :: rest) = some f := youngestBy_cons_of_max h

theorem mem_toFilenames {names : List String} {g : Filename}
    (h : g ∈ toFilenames names) :
    g.name ∈ names ∧ parseVersion g.name = some g.version := by
  simp only [toFilenames, List.mem_filterMap] at h
  obtain ⟨n, hn, hp⟩ := h
  rw [Option.map_eq_some'] at hp
  obtain ⟨v, hv, hg⟩ := hp
  subst hg
  exact ⟨hn, hv⟩

theorem toFilenames_cons_parse {n : String} {v : Nat} (names : List String)
    (h : parseVersion n = some v) :
    toFilenames (n :: names) = ⟨n, v⟩ :: toFilenames names := by
  simp [toFilenames, h]

/-! ## Lemmas: the handle invariant -/

theorem versionsBelow_spec {s : DB} (h : s.versionsBelow = true) :
    ∀ p ∈ s.fs.subdirs, ∀ f ∈ p.2, ∀ v, parseVersion f.1 = some v → v < s.version := by
  intro p hp f hf v hv
  simp only [DB.versionsBelow, List.all_eq_true] at h
  have h2 := h p hp f hf
  rw [hv] at h2
  simpa using h2

theorem versionsBelow_of (s : DB)
    (h : ∀ p ∈ s.fs.subdirs, ∀ f ∈ p.2, ∀ v, parseVersion f.1 = some v → v < s.version) :
    s.versionsBelow = true := by
  simp only [DB.versionsBelow, List.all_eq_true]
  intro p hp f hf
  cases hv : parseVersion f.1 with
  | none => simp [Option.all]
  | some v =>
    simp only [Option.all]
    simpa using h p hp f hf v hv

/-! ## The write path -/

theorem fileWriter_ok (fs : FS) (key name : String) {files : List (String × Bytes)}
    (hl : lookupA key fs.subdirs = some files) (hn : lookupA name files = none) :
    fs.fileWriter key name = .ok ⟨updAssoc key (fun fl => (name, []) :: fl) fs.subdirs⟩ := by
  simp [FS.fileWriter, hl, hn]

theorem lookupA_natRepr_none {s : DB} {key : String} {files : List (String × Bytes)}
    (hb : s.versionsBelow = true) (hl : lookupA key s.fs.subdirs = some files) :
    lookupA (natRepr s.version) files = none := by
  cases hc : lookupA (natRepr s.version) files with
  | none => rfl
  | some d =>
    exfalso
    have hmem := lookupA_some_mem hc
    have hlt := versionsBelow_spec hb _ (lookupA_some_mem hl) _ hmem s.version
      (parseVersion_natRepr s.version)
    omega

/-- Characterization of a successful write: under the handle invariant, a
write to a valid key succeeds, bumps the version counter by one, prepends
the file `(natRepr s.version, data)` to the key's subdirectory, and
introduces no file name other than `natRepr s.version`. -/
theorem write_spec (s : DB) (key : String) (data : Bytes)
    (hk : validateKey key = none) (hb : s.versionsBelow = true) :
    (s.write key data).2 = Except.ok () ∧
    (s.write key data).1.version = s.version + 1 ∧
    lookupA key (s.write key data).1.fs.subdirs =
      some ((natRepr s.version, data) :: (lookupA key s.fs.subdirs).getD []) ∧
    ∀ p ∈ (s.write key data).1.fs.subdirs, ∀ f ∈ p.2,
      f.1 = natRepr s.version ∨ ∃ q ∈ s.fs.subdirs, ∃ g ∈ q.2, g.1 = f.1 := by
  by_cases hex : s.fs.dirExists key
  · obtain ⟨files, hfl⟩ : ∃ files, lookupA key s.fs.subdirs = some files := by
      rcases ho : lookupA key s.fs.subdirs with _ | files
      · rw [FS.dirExists, ho] at hex
        simp at hex
      · exact ⟨files, rfl⟩
    have hn : lookupA (natRepr s.version) files = none := lookupA_natRepr_none hb hfl
    have hfw := fileWriter_ok s.fs key (natRepr s.version) hfl hn
    simp only [DB.write, DB.writerStep, hk, if_pos hex, hfw]
    refine ⟨trivial, trivial, ?_, ?_⟩
    · show lookupA key
        (FS.setFile ⟨updAssoc key (fun fl => (natRepr s.version, []) :: fl) s.fs.subdirs⟩
          key (natRepr s.version) data).subdirs = _
      rw [FS.setFile]
      show lookupA key (updAssoc key (updAssoc (natRepr s.version) fun _ => data)
        (updAssoc key (fun fl => (natRepr s.version, []) :: fl) s.fs.subdirs)) = _
      rw [lookupA_updAssoc_self, lookupA_updAssoc_self, hfl]
      simp [updAssoc_cons_self]
    · intro p hp f hf
      show f.1 = natRepr s.version ∨ _
      rw [FS.setFile] at hp
      rcases mem_updAssoc hp with hp1 | ⟨w, hw, hpw⟩
      · rcases mem_updAssoc hp1 with hp2 | ⟨v, hv, hpv⟩
        · exact Or.inr ⟨p, hp2, f, hf, rfl⟩
        · rw [hpv] at hf
          rcases List.mem_cons.mp hf with hfh | hft
          · exact Or.inl (by rw [hfh])
          · exact Or.inr ⟨(key, v), hv, f, hft, rfl⟩
      · rcases mem_updAssoc hw with hw1 | ⟨v, hv, hwv⟩
        · rw [hpw] at hf
          rcases mem_updAssoc hf with hf1 | ⟨b, hb2, hfb⟩
          · exact Or.inr ⟨(key, w), hw1, f, hf1, rfl⟩
          · exact Or.inl (by rw [hfb])
        · have hwv' : w = (natRepr s.version, ([] : Bytes)) :: v := by
            injection hwv with _ h2
          rw [hpw, hwv', updAssoc_cons_self] at hf
          rcases List.mem_cons.mp hf with hfh | hft
          · exact Or.inl (by rw [hfh])
          · exact Or.inr ⟨(key, v), hv, f, hft, rfl⟩
  · have hnone : lookupA key s.fs.subdirs = none := by
      rcases ho : lookupA key s.fs.subdirs with _ | files
      · rfl
      · rw [FS.dirExists, ho] at hex
        simp at hex
    have hmk : s.fs.mkdir key = ⟨(key, []) :: s.fs.subdirs⟩ := by
      rw [FS.mkdir, hnone]
      rfl
    have hl0 : lookupA key ((key, ([] : List (String × Bytes))) :: s.fs.subdirs)
        = some [] := by simp [lookupA]
    have hfw := fileWriter_ok ⟨(key, []) :: s.fs.subdirs⟩ key (natRepr s.version) hl0 rfl
    rw [updAssoc_cons_self] at hfw
    simp only [DB.write, DB.writerStep, hk, if_neg hex, hmk, hfw]
    refine ⟨trivial, trivial, ?_, ?_⟩
    · show lookupA key
        (FS.setFile ⟨(key, [(natRepr s.version, [])]) :: s.fs.subdirs⟩
          key (natRepr s.version) data).subdirs = _
      rw [FS.setFile]
      show lookupA key (updAssoc key (updAssoc (natRepr s.version) fun _ => data)
        ((key, [(natRepr s.version, [])]) :: s.fs.subdirs)) = _
      rw [updAssoc_cons_self, hnone]
      simp [lookupA, updAssoc]
    · intro p hp f hf
      show f.1 = natRepr s.version ∨ _
      rw [FS.setFile] at hp
      rw [show updAssoc key (updAssoc (natRepr s.version) fun _ => data)
            ((key, [(natRepr s.version, [])]) :: s.fs.subdirs)
          = (key, [(natRepr s.version, data)]) :: s.fs.subdirs by
        rw [updAssoc_cons_self]
        simp [updAssoc]] at hp
      rcases List.mem_cons.mp hp with hph | hpt
      · rw [hph] at hf
        simp at hf
        exact Or.inl (by rw [hf])
      · exact Or.inr ⟨p, hpt, f, hf, rfl⟩

/-- A write to a valid key preserves the handle invariant. -/
theorem write_versionsBelow (s : DB) (key : String) (data : Bytes)
    (hk : validateKey key = none) (hb : s.versionsBelow = true) :
    (s.write key data).1.versionsBelow = true := by
  obtain ⟨-, hv, -, hmem⟩ := write_spec s key data hk hb
  apply versionsBelow_of
  intro p hp f hf v hpv
  rw [hv]
  rcases hmem p hp f hf with h1 | ⟨q, hq, g, hg, hgf⟩
  · rw [h1, parseVersion_natRepr] at hpv
    have hv2 : s.version = v := Option.some_inj.mp hpv
    omega
  · have := versionsBelow_spec hb q hq g hg v (by rw [hgf]; exact hpv)
    omega

/-- Reading the key just written returns the bytes just written. -/
theorem write_read_back (s : DB) (key : String) (data : Bytes)
    (hk : validateKey key = none) (hb : s.versionsBelow = true) :
    ((s.write key data).1.readerTr key).2 = .ok data := by
  obtain ⟨-, hv, hlk, -⟩ := write_spec s key data hk hb
  have hex : (s.write key data).1.fs.dirExists key = true := by
    rw [FS.dirExists, hlk]
    rfl
  have hlist : (s.write key data).1.fs.listFiles key =
      natRepr s.version :: ((lookupA key s.fs.subdirs).getD []).map Prod.fst := by
    rw [FS.listFiles, hlk]
    rfl
  have holdnames : ∀ g ∈ toFilenames (((lookupA key s.fs.subdirs).getD []).map Prod.fst),
      g.version < s.version := by
    intro g hg
    obtain ⟨hgn, hgp⟩ := mem_toFilenames hg
    rcases ho : lookupA key s.fs.subdirs with _ | files
    · rw [ho] at hgn
      simp at hgn
    · rw [ho] at hgn
      simp only [Option.getD_some, List.mem_map] at hgn
      obtain ⟨b, hb2, hbn⟩ := hgn
      refine versionsBelow_spec hb _ (lookupA_some_mem ho) _ hb2 _ ?_
      rw [hbn]
      exact hgp
  have hyoung : youngestFilename (toFilenames ((s.write key data).1.fs.listFiles key)) =
      some ⟨natRepr s.version, s.version⟩ := by
    rw [hlist, toFilenames_cons_parse _ (parseVersion_natRepr s.version)]
    exact youngestFilename_cons_of_max (fun g hg => holdnames g hg)
  simp only [DB.readerTr, hk, hex, hyoung, if_true]
  simp [FS.fileReader, hlk, lookupA]

/-! ## Version allocation across a sequence of writer calls -/

theorem writerStep_state_invalid {s : DB} {k : String} {e : DBErr}
    (hv : validateKey k = some e) : (s.writerStep k).1 = s := by
  simp [DB.writerStep, hv]

theorem writerStep_version_valid {s : DB} {k : String}
    (hv : validateKey k = none) : (s.writerStep k).1.version = s.version + 1 := by
  simp only [DB.writerStep, hv]
  split <;> rfl

/-- A sequence of `Writer` calls on one handle: run `writerStep` for each
key in turn, collecting the version numbers the allocator handed out.  A
call is recorded exactly when it advanced the counter (calls rejected by
validation never reach the allocator; calls whose file creation fails have
already consumed their number). -/
def runWriters : DB → List String → DB × List Nat
  | s, [] => (s, [])
  | s, k :: ks =>
    let s1 := (s.writerStep k).1
    let r := runWriters s1 ks
    if s1.version = s.version then (r.1, r.2) else (r.1, s.version :: r.2)

theorem runWriters_spec (ks : List String) : ∀ s : DB,
    (runWriters s ks).2 = List.range' s.version ((runWriters s ks).2.length) ∧
    (runWriters s ks).1.version = s.version + (runWriters s ks).2.length := by
  induction ks with
  | nil => intro s; simp [runWriters]
  | cons k ks ih =>
    intro s
    cases hv : validateKey k with
    | some e =>
      have h1 : (s.writerStep k).1 = s := writerStep_state_invalid hv
      have heq : (s.writerStep k).1.version = s.version := by rw [h1]
      simp only [runWriters, if_pos heq]
      rw [h1]
      exact ih s
    | none =>
      have h1 : (s.writerStep k).1.version = s.version + 1 := writerStep_version_valid hv
      simp only [runWriters, if_neg (by omega : ¬(s.writerStep k).1.version = s.version)]
      obtain ⟨ha, hb⟩ := ih (s.writerStep k).1
      constructor
      · simp only [List.length_cons, List.range'_succ]
        rw [ha, h1]
        simp [List.length_range']
      · simp only [List.length_cons]
        rw [hb, h1]
        omega

/-! ## The checksum read path -/

/-- Modelled from the spec: a stored version of a key when a checksum
provider is configured (§4.4 step 6; the checksum option and its read-side
verification are not among the provided sources).  Each version carries its
number, its payload bytes and the checksum persisted at write time. -/
structure VersionFile where
  version : Nat
  payload : Bytes
  stored : Nat
deriving DecidableEq, Repr

/-- Modelled from the spec: checksum verification of one version —
recompute the checksum over the payload bytes and compare it with the
stored one (§4.4 step 6). -/
def checkOK (sum : Bytes → Nat) (f : VersionFile) : Bool :=
  sum f.payload = f.stored

/-- Modelled from the spec: the selection loop of the checksum read path
(§4.4 step 6): take the youngest version; on checksum mismatch discard it
and repeat the selection over the remaining versions, until a version
passes verification or none remain. -/
def selectValid (sum : Bytes → Nat) (l : List VersionFile) : Option VersionFile :=
  match hy : youngestBy VersionFile.version l with
  | none => none
  | some y =>
    if checkOK sum y then some y
    else selectValid sum (l.erase y)
termination_by l.length
decreasing_by
  have hm : y ∈ l := youngestBy_mem hy
  have h1 := List.length_erase_of_mem hm
  have h2 := List.length_pos_of_mem hm
  omega

/-- Modelled from the spec: the outcome of the checksum read path after the
key's versions have been listed (§4.4 step 6, §7): no version at all is the
ordinary not-found; versions present but none passing verification is the
corruption-flavoured not-found, carrying the distinguishing attribute. -/
def readChk (sum : Bytes → Nat) (l : List VersionFile) : Except DBErr Bytes :=
  if l.isEmpty then .error (.dataNotFound false)
  else
    match selectValid sum l with
    | some f => .ok f.payload
    | none => .error (.dataNotFound true)

theorem selectValid_youngest_fail {sum : Bytes → Nat} {l : List VersionFile}
    {y : VersionFile} (hy : youngestBy VersionFile.version l = some y)
    (hc : checkOK sum y = false) :
    selectValid sum l = selectValid sum (l.erase y) := by
  rw [selectValid]
  split
  · rename_i heq
    rw [hy] at heq
    exact absurd heq (by simp)
  · rename_i m heq
    rw [hy] at heq
    have hm : y = m := by injection heq
    subst hm
    rw [if_neg (by rw [hc]; simp)]

theorem selectValid_sound_aux (sum : Bytes → Nat) :
    ∀ n (l : List VersionFile), l.length = n → ∀ f, selectValid sum l = some f →
      f ∈ l ∧ checkOK sum f = true ∧
        ∀ g ∈ l, checkOK sum g = true → g.version ≤ f.version := by
  intro n
  induction n using Nat.strong_induction_on with
  | _ n ih =>
    intro l hlen f hsel
    rw [selectValid] at hsel
    split at hsel
    · exact absurd hsel (by simp)
    · rename_i y heq
      by_cases hc : checkOK sum y
      · rw [if_pos hc] at hsel
        have hyf : y = f := by injection hsel
        subst hyf
        exact ⟨youngestBy_mem heq, hc, fun g hg _ => youngestBy_max _ l y heq g hg⟩
      · rw [if_neg hc] at hsel
        have hm : y ∈ l := youngestBy_mem heq
        have hlt : (l.erase y).length < n := by
          have h1 := List.length_erase_of_mem hm
          have h2 := List.length_pos_of_mem hm
          omega
        obtain ⟨hf1, hf2, hf3⟩ := ih _ hlt (l.erase y) rfl f hsel
        refine ⟨List.mem_of_mem_erase hf1, hf2, fun g hg hgc => ?_⟩
        have hgy : g ≠ y := by
          intro hgy
          rw [hgy] at hgc
          rw [hgc] at hc
          exact hc rfl
        exact hf3 g ((List.mem_erase_of_ne hgy).mpr hg) hgc

theorem selectValid_sound (sum : Bytes → Nat) (l : List VersionFile) (f : VersionFile)
    (h : selectValid sum l = some f) :
    f ∈ l ∧ checkOK sum f = true ∧
      ∀ g ∈ l, checkOK sum g = true → g.version ≤ f.version :=
  selectValid_sound_aux sum l.length l rfl f h

theorem selectValid_none_aux (sum : Bytes → Nat) :
    ∀ n (l : List VersionFile), l.length = n → (∀ f ∈ l, checkOK sum f = false) →
      selectValid sum l = none := by
  intro n
  induction n using Nat.strong_induction_on with
  | _ n ih =>
    intro l hlen hall
    rw [selectValid]
    split
    · rfl
    · rename_i y heq
      have hm : y ∈ l := youngestBy_mem heq
      rw [if_neg (by rw [hall y hm]; simp)]
      have hlt : (l.erase y).length < n := by
        have h1 := List.length_erase_of_mem hm
        have h2 := List.length_pos_of_mem hm
        omega
      exact ih _ hlt (l.erase y) rfl (fun f hf => hall f (List.mem_of_mem_erase hf))

theorem selectValid_none (sum : Bytes → Nat) (l : List VersionFile)
    (hall : ∀ f ∈ l, checkOK sum f = false) : selectValid sum l = none :=
  selectValid_none_aux sum l.length l rfl hall

/-! ## Option application -/

theorem applyOptions_append (db : DB) (l1 l2 : List (Option DBOption)) :
    applyOptions db (l1 ++ l2) =
      match applyOptions db l1 with
      | .ok db2 => applyOptions db2 l2
      | .error e => .error e := by
  induction l1 generalizing db with
  | nil => simp [applyOptions]
  | cons o rest ih =>
    cases o with
    | none => simp only [List.cons_append, applyOptions]; exact ih db
    | some f =>
      simp only [List.cons_append, applyOptions]
      cases f db <;> simp [ih]

theorem errIs_self (e : DBErr) : errIs e e = true := by
  cases e <;> simp [errIs]

theorem errIs_wrapped (m : String) (E : DBErr) :
    errIs (.wrapped m E) E = true := by
  simp [errIs, errIs_self]

theorem mem_toFilenames_iff {names : List String} {g : Filename} :
    g ∈ toFilenames names ↔ g.name ∈ names ∧ parseVersion g.name = some g.version := by
  constructor
  · exact mem_toFilenames
  · rintro ⟨hn, hp⟩
    simp only [toFilenames, List.mem_filterMap]
    exact ⟨g.name, hn, by rw [hp]; rfl⟩

/-- Case split of the spec-modelled key validator: a key is rejected (with
the client error) exactly when it is empty, has leading or trailing
whitespace, is "." or "..", or contains a slash or backslash. -/
theorem validateKey_cases (key : String) :
    (validateKey key = some (.clientError "invalid key")
      ∧ (key = "" ∨ hasEdgeWhitespace key.data = true ∨ key = "." ∨ key = ".."
          ∨ '/' ∈ key.data ∨ '\\' ∈ key.data))
    ∨ (validateKey key = none
      ∧ ¬(key = "" ∨ hasEdgeWhitespace key.data = true ∨ key = "." ∨ key = ".."
          ∨ '/' ∈ key.data ∨ '\\' ∈ key.data)) := by
  unfold validateKey
  split_ifs with h1 h2 h3 h4
  · exact Or.inl ⟨rfl, Or.inl h1⟩
  · exact Or.inl ⟨rfl, Or.inr (Or.inl h2)⟩
  · rcases h3 with h3 | h3
    · exact Or.inl ⟨rfl, Or.inr (Or.inr (Or.inl h3))⟩
    · exact Or.inl ⟨rfl, Or.inr (Or.inr (Or.inr (Or.inl h3)))⟩
  · refine Or.inl ⟨rfl, Or.inr (Or.inr (Or.inr (Or.inr ?_)))⟩
    rw [List.any_eq_true] at h4
    obtain ⟨c, hc, hcp⟩ := h4
    rw [decide_eq_true_eq] at hcp
    rcases hcp with rfl | rfl
    · exact Or.inl hc
    · exact Or.inr hc
  · refine Or.inr ⟨rfl, ?_⟩
    rintro (h | h | h | h | h | h)
    · exact h1 h
    · exact h2 h
    · exact h3 (Or.inl h)
    · exact h3 (Or.inr h)
    · exact h4 (List.any_eq_true.mpr ⟨'/', h, by simp⟩)
    · exact h4 (List.any_eq_true.mpr ⟨'\\', h, by simp⟩)

/-! ## The claims -/

/-- Claim C1 — write-then-read round trip: for every valid key and every
byte sequence, writing the bytes via `Writer` (then closing the stream) and
reading the same key back yields exactly the bytes written.  The hypothesis
`versionsBelow` is the reachable-state invariant of a handle (all stored
parseable file names are below the counter): it holds for a handle freshly
opened over a directory without foreign version files and is preserved by
every write (`write_versionsBelow`). -/
theorem write_then_read_roundtrip (s : DB) (key : String) (data : Bytes)
    (hk : validateKey key = none) (hb : s.versionsBelow = true) :
    (s.write key data).2 = Except.ok () ∧
    ((s.write key data).1.readerTr key).2 = .ok data :=
  ⟨(write_spec s key data hk hb).1, write_read_back s key data hk hb⟩

theorem write_then_read_roundtrip_witness :
    ((DB.mk ⟨[]⟩ 0).write "state" [1, 2, 3]).2 = Except.ok () ∧
    (((DB.mk ⟨[]⟩ 0).write "state" [1, 2, 3]).1.readerTr "state").2 = .ok [1, 2, 3] :=
  write_then_read_roundtrip ⟨⟨[]⟩, 0⟩ "state" [1, 2, 3] (by decide) (by decide)

/-- Claim C2 — version selection: `Reader` parses each listed filename as a
version integer discarding entries that do not parse (`toFilenames`), and
opens the file whose parsed version value is numerically greatest; in
particular, after two successive writes to the same key a read returns the
content of the second write.  (`versionsBelow` as in C1.) -/
theorem reader_selects_greatest_version (s : DB) (key : String) (d1 d2 : Bytes)
    (hk : validateKey key = none) (hb : s.versionsBelow = true) :
    (∀ g : Filename, g ∈ toFilenames (s.fs.listFiles key) ↔
      g.name ∈ s.fs.listFiles key ∧ parseVersion g.name = some g.version) ∧
    (∀ df, youngestFilename (toFilenames (s.fs.listFiles key)) = some df →
      df ∈ toFilenames (s.fs.listFiles key) ∧
      (∀ g ∈ toFilenames (s.fs.listFiles key), g.version ≤ df.version) ∧
      (s.readerTr key).2 = s.fs.fileReader key df.name) ∧
    natRepr s.version ≠ natRepr (s.version + 1) ∧
    ((((s.write key d1).1).write key d2).1.readerTr key).2 = .ok d2 := by
  refine ⟨fun g => mem_toFilenames_iff, ?_, ?_, ?_⟩
  · intro df hdf
    have hex : s.fs.dirExists key = true := by
      by_contra hne
      have hnone : lookupA key s.fs.subdirs = none := by
        rcases ho : lookupA key s.fs.subdirs with _ | fl
        · rfl
        · exact absurd (by rw [FS.dirExists, ho]; rfl) hne
      have hl : s.fs.listFiles key = [] := by rw [FS.listFiles, hnone]; rfl
      rw [hl] at hdf
      simp [toFilenames, youngestFilename, youngestBy] at hdf
    refine ⟨youngestFilename_mem hdf, youngestFilename_max _ df hdf, ?_⟩
    simp [DB.readerTr, hk, hex, hdf]
  · intro heq
    have := natRepr_injective heq
    omega
  · have hb1 := write_versionsBelow s key d1 hk hb
    exact write_read_back _ key d2 hk hb1

theorem reader_selects_greatest_version_witness :
    ((((DB.mk ⟨[("state", [("0", [5])])]⟩ 1).write "state" [1]).1.write "state" [2]).1.readerTr
      "state").2 = .ok [2] :=
  (reader_selects_greatest_version ⟨⟨[("state", [("0", [5])])]⟩, 1⟩ "state" [1] [2]
    (by decide) (by decide)).2.2.2

/-- Claim C3 — key validation: every key that is empty, has leading or
trailing whitespace, equals "." or "..", or contains a slash or backslash
is rejected by the validator with a client error, and both `Writer` and
`Reader` then return that error (which the caller-input classification
predicate accepts) and no stream; every other string is accepted by the
validator. -/
theorem invalid_keys_rejected_valid_accepted (key : String) :
    ((key = "" ∨ hasEdgeWhitespace key.data = true ∨ key = "." ∨ key = ".."
        ∨ '/' ∈ key.data ∨ '\\' ∈ key.data) →
      validateKey key = some (.clientError "invalid key") ∧
      IsClientError (.clientError "invalid key") = true ∧
      ∀ s : DB, (s.writerStep key).2.2 = .error (.clientError "invalid key") ∧
        (s.readerTr key).2 = .error (.clientError "invalid key")) ∧
    (¬(key = "" ∨ hasEdgeWhitespace key.data = true ∨ key = "." ∨ key = ".."
        ∨ '/' ∈ key.data ∨ '\\' ∈ key.data) →
      validateKey key = none) := by
  rcases validateKey_cases key with ⟨hv, hc⟩ | ⟨hv, hc⟩
  · refine ⟨fun _ => ⟨hv, rfl, fun s => ?_⟩, fun hnc => absurd hc hnc⟩
    constructor
    · simp [DB.writerStep, hv]
    · simp [DB.readerTr, hv]
  · exact ⟨fun hcond => absurd hcond hc, fun _ => hv⟩

theorem invalid_keys_rejected_valid_accepted_witness :
    ((DB.mk ⟨[]⟩ 0).writerStep " a").2.2 = .error (.clientError "invalid key") ∧
    ((DB.mk ⟨[]⟩ 0).readerTr " a").2 = .error (.clientError "invalid key") ∧
    validateKey "state" = none :=
  ⟨(((invalid_keys_rejected_valid_accepted " a").1 (by decide)).2.2 ⟨⟨[]⟩, 0⟩).1,
   (((invalid_keys_rejected_valid_accepted " a").1 (by decide)).2.2 ⟨⟨[]⟩, 0⟩).2,
   (invalid_keys_rejected_valid_accepted "state").2 (by decide)⟩

/-- Claim C4 — not-found behaviour: for a valid key whose subdirectory does
not exist, or exists but no listed filename parses as a version integer,
`Reader` returns the data-not-found error and no stream; that error is
classified as not-found and not as a client error. -/
theorem reader_data_not_found (s : DB) (key : String)
    (hk : validateKey key = none)
    (h : s.fs.dirExists key = false ∨ toFilenames (s.fs.listFiles key) = []) :
    (s.readerTr key).2 = .error (.dataNotFound false) ∧
    IsDataNotFound (.dataNotFound false) = true ∧
    IsClientError (.dataNotFound false) = false := by
  refine ⟨?_, rfl, rfl⟩
  rcases h with h | h
  · simp [DB.readerTr, hk, h]
  · by_cases hex : s.fs.dirExists key
    · simp [DB.readerTr, hk, hex, h, youngestFilename, youngestBy]
    · simp [DB.readerTr, hk, hex]

theorem reader_data_not_found_witness :
    ((DB.mk ⟨[]⟩ 0).readerTr "state").2 = .error (.dataNotFound false) ∧
    IsDataNotFound (.dataNotFound false) = true ∧
    IsClientError (.dataNotFound false) = false :=
  reader_data_not_found ⟨⟨[]⟩, 0⟩ "state" (by decide) (Or.inl (by decide))

/-- Claim C5 — version allocation: over any sequence of `Writer` calls on a
single handle whose counter starts at 0 — whatever keys they target, and
including calls whose file creation fails — the allocated version numbers
are exactly `0, 1, 2, …`: strictly increasing consecutive integers starting
at 0, never reusing a number consumed by a failed write. -/
theorem writer_version_allocation (s : DB) (ks : List String) (h : s.version = 0) :
    (runWriters s ks).2 = List.range ((runWriters s ks).1.version) := by
  obtain ⟨ha, hb⟩ := runWriters_spec ks s
  rw [h] at ha hb
  rw [ha, hb, List.range_eq_range', Nat.zero_add]

theorem writer_version_allocation_witness :
    (runWriters ⟨⟨[("a", [("1", [9])])]⟩, 0⟩ ["a", " a", "a"]).2 =
      List.range ((runWriters ⟨⟨[("a", [("1", [9])])]⟩, 0⟩ ["a", " a", "a"]).1.version) :=
  writer_version_allocation ⟨⟨[("a", [("1", [9])])]⟩, 0⟩ ["a", " a", "a"] rfl

/-- Claim C6 — checksum fallback (modelled from the spec; the checksum
option and its read path are not among the provided sources): when the
youngest version's stored checksum does not match the recomputed one, the
selection discards it and repeats over the remaining versions — so a
selected version always passes verification and is the greatest-numbered
version that passes; if every version fails, the read reports the
corruption-flavoured not-found error, distinct from the ordinary not-found
error of a never-written key. -/
theorem checksum_fallback_selection (sum : Bytes → Nat) (l : List VersionFile) :
    (∀ y, youngestBy VersionFile.version l = some y → checkOK sum y = false →
      selectValid sum l = selectValid sum (l.erase y)) ∧
    (∀ f, selectValid sum l = some f →
      f ∈ l ∧ checkOK sum f = true ∧
      ∀ g ∈ l, checkOK sum g = true → g.version ≤ f.version) ∧
    ((∀ f ∈ l, checkOK sum f = false) → l ≠ [] →
      readChk sum l = .error (.dataNotFound true)) ∧
    readChk sum [] = .error (.dataNotFound false) ∧
    (DBErr.dataNotFound true ≠ DBErr.dataNotFound false) ∧
    IsDataNotFound (.dataNotFound true) = true := by
  refine ⟨fun y hy hc => selectValid_youngest_fail hy hc,
    fun f h => selectValid_sound sum l f h, ?_, rfl, by decide, rfl⟩
  intro hall hne
  have hsel := selectValid_none sum l hall
  have hie : l.isEmpty = false := by
    cases l with
    | nil => exact absurd rfl hne
    | cons a t => rfl
  simp [readChk, hie, hsel]

theorem checksum_fallback_selection_witness :
    readChk (fun _ => 0) [⟨0, [1], 5⟩] = .error (.dataNotFound true) :=
  (checksum_fallback_selection (fun _ => 0) [⟨0, [1], 5⟩]).2.2.1 (by decide) (by decide)

/-- Claim C7 (counterexample) — `Open` with a nil directory returns the
error of `errors.New("nil dir")`, a plain error which the caller-input
classification predicate does not accept: the claim that this error is
classified as a client error is false. -/
theorem open_nil_not_client_error_counterexample :
    Open none [] = .error (.plainError "nil dir") ∧
    IsClientError (.plainError "nil dir") = false := ⟨rfl, rfl⟩

/-- Claim C7 (amended) — `Open` with a nil directory returns no handle and
an error, but that error is the plain error of `errors.New("nil dir")`,
which the caller-input classification predicate does not accept (unlike the
client error returned for a present-but-nonexistent directory). -/
theorem open_nil_plain_error (opts : List (Option DBOption)) :
    Open none opts = .error (.plainError "nil dir") ∧
    IsClientError (.plainError "nil dir") = false := ⟨rfl, rfl⟩

/-- Claim C8 — option application: `Open` on an existing directory with no
options succeeds; a nil option is skipped as a no-op; options are applied
in order, and if an option fails with error `E` (after the options before
it succeeded), `Open` returns no handle and the wrapping error, which the
`errors.Is`-style identity check relates back to `E`. -/
theorem open_option_application (d : RootDir) (hd : d.present = true) :
    Open (some d) [] = .ok ⟨d.fs, 0⟩ ∧
    (∀ opts : List (Option DBOption), Open (some d) (none :: opts) = Open (some d) opts) ∧
    ∀ (pre post : List (Option DBOption)) (f : DBOption) (db2 : DB) (E : DBErr),
      applyOptions ⟨d.fs, 0⟩ pre = .ok db2 → f db2 = .error E →
      Open (some d) (pre ++ some f :: post) = .error (.wrapped "applying option failed" E) ∧
      errIs (.wrapped "applying option failed" E) E = true := by
  refine ⟨by simp [Open, hd, applyOptions], fun opts => by simp [Open, hd, applyOptions], ?_⟩
  intro pre post f db2 E hpre hf
  refine ⟨?_, errIs_wrapped _ E⟩
  simp only [Open, hd, if_true]
  rw [applyOptions_append, hpre]
  simp [applyOptions, hf]

theorem open_option_application_witness :
    Open (some ⟨true, ⟨[]⟩⟩)
        ([] ++ some (fun _ => .error (.plainError "boom")) :: []) =
      .error (.wrapped "applying option failed" (.plainError "boom")) ∧
    errIs (.wrapped "applying option failed" (.plainError "boom")) (.plainError "boom") = true :=
  (open_option_application ⟨true, ⟨[]⟩⟩ rfl).2.2 [] []
    (fun _ => .error (.plainError "boom")) ⟨⟨[]⟩, 0⟩ (.plainError "boom") rfl rfl

/-- Claim C9 — validation precedes I/O: for an invalid key, `Writer` and
`Reader` return the validation error with an empty trace of `Dir`
operations (no Exists, Mkdir, ListFiles, FileReader or FileWriter call) and
with the handle state — including the version counter — unchanged. -/
theorem invalid_key_no_io_no_state_change (s : DB) (key : String) (e : DBErr)
    (h : validateKey key = some e) :
    s.writerStep key = (s, [], .error e) ∧ s.readerTr key = ([], .error e) := by
  constructor
  · simp [DB.writerStep, h]
  · simp [DB.readerTr, h]

theorem invalid_key_no_io_no_state_change_witness :
    (DB.mk ⟨[]⟩ 5).writerStep ".." = (⟨⟨[]⟩, 5⟩, [], .error (.clientError "invalid key")) ∧
    (DB.mk ⟨[]⟩ 5).readerTr ".." = ([], .error (.clientError "invalid key")) :=
  invalid_key_no_io_no_state_change ⟨⟨[]⟩, 5⟩ ".." (.clientError "invalid key") (by decide)

/-- Claim C10 — a directory whose existence check reports false makes
`Open` return no handle and the client error of `newClientError`, accepted
by the caller-input classification predicate. -/
theorem open_dir_not_exists_client_error (d : RootDir) (opts : List (Option DBOption))
    (h : d.present = false) :
    Open (some d) opts = .error (.clientError "database dir not found") ∧
    IsClientError (.clientError "database dir not found") = true := by
  refine ⟨?_, rfl⟩
  simp [Open, h]

theorem open_dir_not_exists_client_error_witness :
    Open (some ⟨false, ⟨[]⟩⟩) [] = .error (.clientError "database dir not found") ∧
    IsClientError (.clientError "database dir not found") = true :=
  open_dir_not_exists_client_error ⟨false, ⟨[]⟩⟩ [] rfl

end Deebee
